import Mathlib

/-!
Verification of the aliquot-sequence repository (src/aliquot.rs, src/types.rs,
src/error.rs, src/main.rs) against its natural-language specification.

The numeric trait `Number` (src/types.rs) is instantiated only at fixed-width
unsigned integers (u16/u32/u64/u128).  We embed values as `Nat` and carry the
domain maximum `T::MAX` as an explicit parameter `MAX` wherever the source
mentions it; on every reachable path the source's arithmetic never wraps (the
only subtraction, `T::MAX - sum`, is guarded by the invariant `sum ≤ MAX`),
so `Nat` arithmetic is faithful.  The `usize` subtraction
`max_cache_size - cache_count` in `Cache::add` is embedded as truncated `Nat`
subtraction; it underflows in Rust exactly when `cache_count > max_cache_size`,
a situation analysed separately (claim C4).
-/

namespace Aliquot

/-! ### Integer square root (the `isqrt` closure in `Generator::aliquot_sum`)

The source computes the square root by Newton's iteration:
  `if k <= 1 { return k }; x0 = k/2; x1 = (x0 + k/x0)/2;
   while x1 < x0 { x0 = x1; x1 = (x0 + k/x0)/2 }; x0`.
The `while` loop strictly decreases `x0`, so `x0` itself bounds the number of
iterations; we embed the loop with that bound as structural fuel so the
function evaluates by kernel reduction. -/

/-- One-variable Newton iteration from the source:
current guess `x0`, next guess `(x0 + k / x0) / 2`, loop while it decreases.
`fuel` bounds the iteration count; `isqrtAux_eq` shows `fuel ≥ x0` suffices. -/
def isqrtAux (k : Nat) : Nat → Nat → Nat
  | 0, x0 => x0
  | fuel + 1, x0 =>
    let x1 := (x0 + k / x0) / 2
    if x1 < x0 then isqrtAux k fuel x1 else x0

/-- The `isqrt` closure of `Generator::aliquot_sum`. -/
def isqrt (k : Nat) : Nat :=
  if k ≤ 1 then k else isqrtAux k (k / 2) (k / 2)

/-! ### The divisor-sum computer `Generator::aliquot_sum`

`aliquot_sum` returns `Result<T, AliquotError>`; we embed the error case as
`none`.  The loop body for `i` in `2 .. isqrt(n) + 1` is `sumStep`. -/

/-- Loop body of `Generator::aliquot_sum`: for trial divisor `i`,
`div = n / i`, `chk = i * div`; when `chk == n`, add `i + div`
(or only `i` when `i == div`), failing when the addition would
exceed `MAX` (the check `add > T::MAX - sum`). -/
def sumStep (MAX n : Nat) (acc : Option Nat) (i : Nat) : Option Nat :=
  match acc with
  | none => none
  | some sum =>
    let div := n / i
    let chk := i * div
    if chk = n then
      let add := if i ≠ div then i + div else i
      if MAX - sum < add then none else some (sum + add)
    else
      some sum

/-- The trial divisors visited by the loop `for i in 2..(isqrt(n) + 1)`,
i.e. the integers `2, 3, …, isqrt n`. -/
def trialDivisors (n : Nat) : List Nat :=
  List.range' 2 (isqrt n + 1 - 2)

/-- `Generator::aliquot_sum`: `n ≤ 1` yields `Ok(0)`; otherwise the sum starts
at `1` and the loop trial-divides each `i` in `2..(isqrt(n) + 1)`. -/
def aliquotSum (MAX n : Nat) : Option Nat :=
  if n ≤ 1 then some 0
  else (trialDivisors n).foldl (sumStep MAX n) (some 1)

/-! ### The classification model `AliquotSeq` (src/aliquot.rs lines 6-123) -/

/-- The `AliquotSeq<T>` enum.  `prime` carries the pair `(n, T::ONE)` of the
source; `intoCycle` carries the leading part and the cycle. -/
inductive AliquotSeq : Type where
  | perfect (n : Nat)
  | prime (n one : Nat)
  | convergent (v : List Nat)
  | amicable (n m : Nat)
  | sociable (v : List Nat)
  | aspiring (v : List Nat)
  | intoCycle (v0 v1 : List Nat)
  | unknown (v : List Nat)
  deriving DecidableEq, Repr

namespace AliquotSeq

/-- `AliquotSeq::number`: the first number of the sequence.  The source
indexes `v[0]` (a panic on an empty payload); we use `headD 0`, which agrees
whenever the payload is non-empty. -/
def number : AliquotSeq → Nat
  | perfect n => n
  | prime n _ => n
  | convergent v => v.headD 0
  | amicable n _ => n
  | sociable v => v.headD 0
  | aspiring v => v.headD 0
  | intoCycle v0 _ => v0.headD 0
  | unknown v => v.headD 0

/-- `AliquotSeq::len`. -/
def len : AliquotSeq → Nat
  | perfect _ => 1
  | prime _ _ => 2
  | convergent v => v.length
  | amicable _ _ => 2
  | sociable v => v.length
  | aspiring v => v.length
  | intoCycle v0 v1 => v0.length + v1.length
  | unknown v => v.length

/-- `AliquotSeq::seq`: the flattened sequence. -/
def seq : AliquotSeq → List Nat
  | perfect n => [n]
  | prime n one => [n, one]
  | convergent v => v
  | amicable n m => [n, m]
  | sociable v => v
  | aspiring v => v
  | intoCycle v0 v1 => v0 ++ v1
  | unknown v => v

/-- `AliquotSeq::cycles`. -/
def cycles : AliquotSeq → Bool
  | amicable _ _ => true
  | sociable _ => true
  | intoCycle _ _ => true
  | _ => false

end AliquotSeq

/-! ### The sequence cache (src/aliquot.rs lines 125-270)

The two `HashMap`s are embedded extensionally as functions to `Option`;
`HashMap::insert` (which overwrites an existing key) becomes `mapInsert`. -/

/-- Overwriting insertion into a map, the behaviour of `HashMap::insert`. -/
def mapInsert {α : Type} (f : Nat → Option α) (k : Nat) (v : α) :
    Nat → Option α :=
  fun x => if x = k then some v else f x

/-- The `Cache<T>` struct. -/
structure Cache where
  maxCacheSize : Nat
  cacheCount : Nat
  cacheMap : Nat → Option AliquotSeq
  cacheLut : Nat → Option Nat

namespace Cache

/-- `Cache::new`. -/
def new (maxCacheSize : Nat) : Cache :=
  { maxCacheSize := maxCacheSize
    cacheCount := 0
    cacheMap := fun _ => none
    cacheLut := fun _ => none }

/-- `Cache::add_seq_lut`: register every member of `seq` except the first in
the LUT pointing to `n`, skipping members `≤ 1`, and increase `cache_count`
by `seq.len() - 1`. -/
def addSeqLut (c : Cache) (n : Nat) (s : List Nat) : Cache :=
  { c with
    cacheLut :=
      (s.drop 1).foldl (fun f x => if 1 < x then mapInsert f x n else f)
        c.cacheLut
    cacheCount := c.cacheCount + (s.length - 1) }

/-- `Cache::add`.  The budget test is the `usize` comparison
`len < max_cache_size - cache_count` (truncated subtraction here; the Rust
subtraction underflows exactly when `cache_count > max_cache_size`, see the
analysis of claim C4).  An `AmicableNumber` also inserts its mirrored pair
directly; the match on the other variants registers the primary list (only
the leading part, for `IntoCycle`) in the LUT. -/
def add (c : Cache) (a : AliquotSeq) : Cache :=
  let len := a.len
  let n := a.number
  if len < c.maxCacheSize - c.cacheCount then
    if (c.cacheMap n).isSome then c
    else
      let c1 :=
        match a with
        | .convergent s => c.addSeqLut n s
        | .sociable s => c.addSeqLut n s
        | .aspiring s => c.addSeqLut n s
        | .amicable _ p =>
          { c with cacheMap := mapInsert c.cacheMap p (.amicable p n) }
        | .intoCycle s _ => c.addSeqLut n s
        | .unknown s => c.addSeqLut n s
        | _ => c
      { c1 with
        cacheMap := mapInsert c1.cacheMap n a
        cacheCount := c1.cacheCount + len }
  else c

/-- `Cache::add_and_return`. -/
def addAndReturn (c : Cache) (a : AliquotSeq) : Cache × AliquotSeq :=
  (c.add a, a)

/-- `Cache::count`. -/
def count (c : Cache) : Nat :=
  c.cacheCount

/-- The closure `find_pos_n` of `Cache::get`: position of the first member
equal to `n`. -/
def findPos (n : Nat) (s : List Nat) : Option Nat :=
  s.findIdx? (· = n)

/-- `Cache::get`: a direct key hit is returned as stored; otherwise an LUT
hit reconstructs the suffix (tail for `Convergent`/`AspiringNumber`/`Unknown`
when the position is not the last, rotation for `SociableNumber`, shortened
leading part for `IntoCycle`). -/
def get (c : Cache) (n : Nat) : Option AliquotSeq :=
  match c.cacheMap n with
  | some a => some a
  | none =>
    match c.cacheLut n with
    | none => none
    | some p =>
      match c.cacheMap p with
      | some (.convergent s) =>
        match findPos n s with
        | some pos =>
          if pos < s.length - 1 then some (.convergent (s.drop pos)) else none
        | none => none
      | some (.aspiring s) =>
        match findPos n s with
        | some pos =>
          if pos < s.length - 1 then some (.aspiring (s.drop pos)) else none
        | none => none
      | some (.sociable s) =>
        match findPos n s with
        | some pos => some (.sociable (s.drop pos ++ s.take pos))
        | none => none
      | some (.intoCycle s cyc) =>
        match findPos n s with
        | some pos => some (.intoCycle (s.drop pos) cyc)
        | none => none
      | some (.unknown s) =>
        match findPos n s with
        | some pos =>
          if pos < s.length - 1 then some (.unknown (s.drop pos)) else none
        | none => none
      | _ => none

end Cache

/-! ### The classifier `Generator::aliquot_seq` (src/aliquot.rs lines 364-509)

The `Generator` fields become parameters: the numeric domain maximum `MAX`
(`T::MAX`), the value ceiling `maxNum` (`max_num`) and the step budget
(`max_len_seq`; the `for _i in 1..max_len_seq` loop performs at most
`max_len_seq - 1` iterations, passed as structural fuel).  The output also
carries the number of `aliquot_sum` invocations, the per-step cost the
specification reasons about. -/

/-- Result of one classifier call: the classification, the cache afterwards,
and how many times `Generator::aliquot_sum` was invoked during the call. -/
structure SeqOut where
  res : AliquotSeq
  cache : Cache
  calls : Nat

/-- The iteration of `Generator::aliquot_seq`.  `seq` is the sequence built
so far (starting at `[n]`), `lut` the transient set `lut_seq` of values
pushed so far, `calls` the `aliquot_sum` invocations so far.  Fuel `0`
corresponds to the step budget running out. -/
def aliquotLoop (MAX maxNum n : Nat) :
    Nat → List Nat → List Nat → Cache → Nat → SeqOut
  | 0, s, _, c, calls => ⟨.unknown s, c.add (.unknown s), calls⟩
  | fuel + 1, s, lut, c, calls =>
    let last := s.getLastD 0
    match aliquotSum MAX last with
    | none => ⟨.unknown s, c.add (.unknown s), calls + 1⟩
    | some next =>
      if maxNum ≤ next then ⟨.unknown s, c.add (.unknown s), calls + 1⟩
      else
        match c.get next with
        | some cached =>
          match cached with
          | .perfect p =>
            ⟨.aspiring (s ++ [p]), c.add (.aspiring (s ++ [p])), calls + 1⟩
          | .prime p one =>
            ⟨.convergent (s ++ [p, one]), c.add (.convergent (s ++ [p, one])),
              calls + 1⟩
          | .convergent v =>
            ⟨.convergent (s ++ v), c.add (.convergent (s ++ v)), calls + 1⟩
          | .amicable a0 a1 =>
            if a0 = next ∧ a1 = n then ⟨.amicable n next, c, calls + 1⟩
            else
              ⟨.intoCycle s [a0, a1], c.add (.intoCycle s [a0, a1]), calls + 1⟩
          | .sociable v =>
            ⟨.intoCycle s v, c.add (.intoCycle s v), calls + 1⟩
          | .aspiring v =>
            ⟨.aspiring (s ++ v), c.add (.aspiring (s ++ v)), calls + 1⟩
          | .intoCycle v0 v1 =>
            ⟨.intoCycle (s ++ v0) v1, c.add (.intoCycle (s ++ v0) v1),
              calls + 1⟩
          | .unknown v =>
            ⟨.unknown (s ++ v), c.add (.unknown (s ++ v)), calls + 1⟩
        | none =>
          if next = 1 then
            if s.length = 1 then ⟨.prime n 1, c.add (.prime n 1), calls + 1⟩
            else ⟨.convergent (s ++ [1]), c.add (.convergent (s ++ [1])),
              calls + 1⟩
          else if next = n then
            match s.length with
            | 1 => ⟨.perfect n, c.add (.perfect n), calls + 1⟩
            | 2 => ⟨.amicable n last, c.add (.amicable n last), calls + 1⟩
            | _ => ⟨.sociable s, c.add (.sociable s), calls + 1⟩
          else if next = last then
            ⟨.aspiring s, c.add (.aspiring s), calls + 1⟩
          else if next ∈ lut then
            let pos := (Cache.findPos next s).getD 0
            ⟨.intoCycle (s.take pos) (s.drop pos),
              c.add (.intoCycle (s.take pos) (s.drop pos)), calls + 1⟩
          else
            aliquotLoop MAX maxNum n fuel (s ++ [next]) (lut ++ [next]) c
              (calls + 1)

/-- `Generator::aliquot_seq`: the `n == 0 || n == 1` early return, the cache
lookup, then the bounded iteration starting from `seq = [n]`. -/
def aliquotSeq (MAX maxNum maxLenSeq : Nat) (c : Cache) (n : Nat) : SeqOut :=
  if n = 0 ∨ n = 1 then ⟨.unknown [n], c, 0⟩
  else
    match c.get n with
    | some a => ⟨a, c, 0⟩
    | none => aliquotLoop MAX maxNum n (maxLenSeq - 1) [n] [] c 0

/-! ### Correctness of the Newton integer square root -/

/-- One Newton step from a positive guess never falls below `Nat.sqrt k`. -/
lemma sqrt_le_newton (k x : Nat) (hx : 0 < x) :
    Nat.sqrt k ≤ (x + k / x) / 2 := by
  set s := Nat.sqrt k with hs
  rw [Nat.le_div_iff_mul_le (by norm_num : 0 < 2)]
  rcases le_or_lt (s * 2) x with h | h
  · have : 0 ≤ k / x := Nat.zero_le _
    omega
  · have hk : s * s ≤ k := Nat.sqrt_le k
    have hdiv : s * 2 - x ≤ k / x := by
      rw [Nat.le_div_iff_mul_le hx]
      have hxs : x ≤ s * 2 := le_of_lt h
      zify [hxs]
      have hk' : (s : ℤ) * s ≤ k := by exact_mod_cast hk
      nlinarith [sq_nonneg ((s : ℤ) - x)]
    omega

/-- One Newton step from a guess above `Nat.sqrt k` strictly decreases. -/
lemma newton_lt (k x : Nat) (h : Nat.sqrt k < x) : (x + k / x) / 2 < x := by
  have hx0 : 0 < x := lt_of_le_of_lt (Nat.zero_le _) h
  have hk : k < x * x := Nat.sqrt_lt.mp h
  have hdx : k / x < x := (Nat.div_lt_iff_lt_mul hx0).mpr hk
  omega

/-- The fueled Newton loop computes `Nat.sqrt k` from any guess at least
`Nat.sqrt k`, given fuel at least the guess. -/
lemma isqrtAux_eq (k : Nat) :
    ∀ fuel x, 1 ≤ Nat.sqrt k → Nat.sqrt k ≤ x → x ≤ fuel →
      isqrtAux k fuel x = Nat.sqrt k := by
  intro fuel
  induction fuel with
  | zero => intro x h1 hsx hx; omega
  | succ f ih =>
    intro x h1 hsx hx
    have hx0 : 0 < x := lt_of_lt_of_le h1 hsx
    simp only [isqrtAux]
    by_cases hlt : (x + k / x) / 2 < x
    · rw [if_pos hlt]
      exact ih _ h1 (sqrt_le_newton k x hx0) (by omega)
    · rw [if_neg hlt]
      rcases lt_or_eq_of_le hsx with hlt' | heq
      · exact absurd (newton_lt k x hlt') hlt
      · exact heq.symm

/-- For `k ≥ 2` the initial guess `k / 2` is at least `Nat.sqrt k`. -/
lemma sqrt_le_half (k : Nat) (hk : 2 ≤ k) : Nat.sqrt k ≤ k / 2 := by
  set s := Nat.sqrt k with hs
  rcases le_or_lt s 1 with h1 | h1
  · omega
  · have h2 : s * 2 ≤ s * s := Nat.mul_le_mul_left s (by omega)
    have h3 : s ≤ s * s / 2 := by
      rw [Nat.le_div_iff_mul_le (by norm_num : 0 < 2)]
      exact h2
    exact le_trans h3 (Nat.div_le_div_right (Nat.sqrt_le k))

/-- The source's `isqrt` closure computes the floor integer square root. -/
lemma isqrt_eq (k : Nat) : isqrt k = Nat.sqrt k := by
  by_cases h : k ≤ 1
  · interval_cases k <;> simp [isqrt]
  · have hk : 2 ≤ k := by omega
    have h1 : 1 ≤ Nat.sqrt k := Nat.le_sqrt.mpr (by omega)
    simp only [isqrt, if_neg h]
    exact isqrtAux_eq k (k / 2) (k / 2) h1 (sqrt_le_half k hk) le_rfl

/-! ### Correctness of the divisor-sum loop -/

/-- The amount the loop body adds to the running sum for trial divisor `i`
(zero when `i` does not divide `n`). -/
def contrib (n i : Nat) : Nat :=
  if i * (n / i) = n then (if i ≠ n / i then i + n / i else i) else 0

lemma foldl_sumStep_none (MAX n : Nat) (l : List Nat) :
    l.foldl (sumStep MAX n) none = none := by
  induction l with
  | nil => rfl
  | cons i t ih => simpa [sumStep] using ih

/-- A successful run of the guarded loop computes the unguarded sum of the
contributions. -/
lemma foldl_sumStep_some (MAX n : Nat) :
    ∀ (l : List Nat) (sum s : Nat),
      l.foldl (sumStep MAX n) (some sum) = some s →
        s = sum + (l.map (contrib n)).sum := by
  intro l
  induction l with
  | nil => intro sum s h; simpa using h.symm
  | cons i t ih =>
    intro sum s h
    simp only [List.foldl_cons] at h
    simp only [List.map_cons, List.sum_cons]
    by_cases hdvd : i * (n / i) = n
    · have hstep : sumStep MAX n (some sum) i
          = if MAX - sum < (if i ≠ n / i then i + n / i else i) then none
            else some (sum + (if i ≠ n / i then i + n / i else i)) := by
        simp only [sumStep, if_pos hdvd]
      by_cases hover : MAX - sum < (if i ≠ n / i then i + n / i else i)
      · rw [hstep, if_pos hover, foldl_sumStep_none] at h
        exact absurd h (by simp)
      · rw [hstep, if_neg hover] at h
        have := ih _ _ h
        simp only [contrib, if_pos hdvd]
        omega
    · have hstep : sumStep MAX n (some sum) i = some sum := by
        simp only [sumStep, if_neg hdvd]
      rw [hstep] at h
      have := ih _ _ h
      simp only [contrib, if_neg hdvd]
      omega

lemma sum_map_range' (f : Nat → Nat) :
    ∀ (m a : Nat), ((List.range' a m).map f).sum = ∑ i ∈ Finset.Ico a (a + m), f i := by
  intro m
  induction m with
  | zero => intro a; simp
  | succ k ih =>
    intro a
    have hb : a + (k + 1) = a + 1 + k := by omega
    rw [List.range'_succ, List.map_cons, List.sum_cons, ih (a + 1), hb,
      Finset.sum_eq_sum_Ico_succ_bot (by omega : a < a + 1 + k)]

/-- Trial division over `2 … ⌊√n⌋` with paired co-divisors computes the sum
of the proper divisors of `n`: the divisors `< √n` pair with those `> √n`,
`1` (counted by the initial sum) pairs with the excluded `n` itself, and a
square root divisor is counted once. -/
lemma sum_contrib_eq (n : Nat) (hn : 2 ≤ n) :
    1 + ∑ i ∈ Finset.Ico 2 (Nat.sqrt n + 1), contrib n i
      = ∑ d ∈ n.properDivisors, d := by
  classical
  set P := n.properDivisors with hP
  set A := P.filter (fun d => 2 ≤ d ∧ d * d < n) with hA
  set B := P.filter (fun d => d * d = n) with hB
  set Cc := P.filter (fun d => n < d * d) with hCc
  have hmemA : ∀ d, d ∈ A ↔ d ∣ n ∧ 2 ≤ d ∧ d * d < n := by
    intro d
    rw [hA, Finset.mem_filter, hP, Nat.mem_properDivisors]
    constructor
    · rintro ⟨⟨h1, _⟩, h2, h3⟩; exact ⟨h1, h2, h3⟩
    · rintro ⟨h1, h2, h3⟩
      exact ⟨⟨h1, by nlinarith⟩, h2, h3⟩
  have hmemB : ∀ d, d ∈ B ↔ d ∣ n ∧ d * d = n := by
    intro d
    rw [hB, Finset.mem_filter, hP, Nat.mem_properDivisors]
    constructor
    · rintro ⟨⟨h1, _⟩, h2⟩; exact ⟨h1, h2⟩
    · rintro ⟨h1, h2⟩
      have hd2 : 2 ≤ d := by
        rcases Nat.lt_or_ge d 2 with h | h
        · interval_cases d <;> omega
        · exact h
      exact ⟨⟨h1, by nlinarith⟩, h2⟩
  have hmemC : ∀ d, d ∈ Cc ↔ d ∣ n ∧ d < n ∧ n < d * d := by
    intro d
    rw [hCc, Finset.mem_filter, hP, Nat.mem_properDivisors]
    tauto
  -- decomposition of the proper divisors
  have hsplit : P = insert 1 ((A ∪ B) ∪ Cc) := by
    ext d
    simp only [Finset.mem_insert, Finset.mem_union, hmemA, hmemB, hmemC]
    constructor
    · intro hd
      rw [hP, Nat.mem_properDivisors] at hd
      obtain ⟨hdvd, hlt⟩ := hd
      by_cases h1 : d = 1
      · exact Or.inl h1
      · have hd0 : d ≠ 0 := by
          rintro rfl
          rw [zero_dvd_iff] at hdvd
          omega
        have hd2 : 2 ≤ d := by omega
        rcases lt_trichotomy (d * d) n with h | h | h
        · exact Or.inr (Or.inl (Or.inl ⟨hdvd, hd2, h⟩))
        · exact Or.inr (Or.inl (Or.inr ⟨hdvd, h⟩))
        · exact Or.inr (Or.inr ⟨hdvd, hlt, h⟩)
    · intro hd
      rw [hP, Nat.mem_properDivisors]
      rcases hd with rfl | (⟨h1, h2, h3⟩ | ⟨h1, h2⟩) | ⟨h1, h2, _⟩
      · exact ⟨one_dvd n, by omega⟩
      · exact ⟨h1, by nlinarith⟩
      · have hd2 : 2 ≤ d := by
          rcases Nat.lt_or_ge d 2 with h | h
          · interval_cases d <;> omega
          · exact h
        exact ⟨h1, by nlinarith⟩
      · exact ⟨h1, h2⟩
  have hdisjAB : Disjoint A B := by
    rw [Finset.disjoint_left]
    intro d hdA hdB
    rw [hmemA] at hdA
    rw [hmemB] at hdB
    omega
  have hdisjABC : Disjoint (A ∪ B) Cc := by
    rw [Finset.disjoint_left]
    intro d hdAB hdC
    rw [Finset.mem_union, hmemA, hmemB] at hdAB
    rw [hmemC] at hdC
    omega
  have h1mem : (1 : Nat) ∉ (A ∪ B) ∪ Cc := by
    intro h
    rcases Finset.mem_union.mp h with h' | h'
    · rcases Finset.mem_union.mp h' with h'' | h''
      · obtain ⟨-, h2, -⟩ := (hmemA 1).mp h''
        omega
      · obtain ⟨-, h2⟩ := (hmemB 1).mp h''
        omega
    · obtain ⟨-, -, h2⟩ := (hmemC 1).mp h'
      omega
  have hPsum : ∑ d ∈ P, d = 1 + (∑ d ∈ A, d + ∑ d ∈ B, d) + ∑ d ∈ Cc, d := by
    rw [hsplit, Finset.sum_insert h1mem, Finset.sum_union hdisjABC,
      Finset.sum_union hdisjAB]
    omega
  -- the trial-division sum, restricted to actual divisors
  set T := (Finset.Ico 2 (Nat.sqrt n + 1)).filter (fun i => i * (n / i) = n)
    with hT
  have hcontrib : ∀ i ∈ Finset.Ico 2 (Nat.sqrt n + 1), contrib n i
      = if i * (n / i) = n then (if i ≠ n / i then i + n / i else i) else 0 :=
    fun i _ => rfl
  have hTsum : ∑ i ∈ Finset.Ico 2 (Nat.sqrt n + 1), contrib n i
      = ∑ i ∈ T, (if i ≠ n / i then i + n / i else i) := by
    rw [Finset.sum_congr rfl hcontrib, ← Finset.sum_filter, ← hT]
  have hmemT : ∀ i, i ∈ T ↔ i ∣ n ∧ 2 ≤ i ∧ i * i ≤ n := by
    intro i
    rw [hT, Finset.mem_filter, Finset.mem_Ico]
    constructor
    · rintro ⟨⟨h2, hlt⟩, hchk⟩
      have hdvd : i ∣ n := ⟨n / i, hchk.symm⟩
      have hle : i ≤ Nat.sqrt n := by omega
      exact ⟨hdvd, h2, Nat.le_sqrt.mp hle⟩
    · rintro ⟨hdvd, h2, hsq⟩
      have hchk : i * (n / i) = n := Nat.mul_div_cancel' hdvd
      have hle : i ≤ Nat.sqrt n := Nat.le_sqrt.mpr hsq
      exact ⟨⟨h2, by omega⟩, hchk⟩
  have hTAB : T = A ∪ B := by
    ext i
    rw [hmemT, Finset.mem_union, hmemA, hmemB]
    constructor
    · rintro ⟨hdvd, h2, hsq⟩
      rcases lt_or_eq_of_le hsq with h | h
      · exact Or.inl ⟨hdvd, h2, h⟩
      · exact Or.inr ⟨hdvd, h⟩
    · rintro (⟨hdvd, h2, h⟩ | ⟨hdvd, h⟩)
      · exact ⟨hdvd, h2, le_of_lt h⟩
      · have hd2 : 2 ≤ i := by
          rcases Nat.lt_or_ge i 2 with h' | h'
          · interval_cases i <;> omega
          · exact h'
        exact ⟨hdvd, hd2, le_of_eq h⟩
  -- on A the pair (i, n / i) is added; on B only i
  have hAval : ∀ i ∈ A, (if i ≠ n / i then i + n / i else i) = i + n / i := by
    intro i hi
    rw [hmemA] at hi
    obtain ⟨hdvd, h2, hlt⟩ := hi
    have hne : i ≠ n / i := by
      intro he
      rw [← Nat.mul_div_cancel' hdvd, ← he] at hlt
      omega
    rw [if_pos hne]
  have hBval : ∀ i ∈ B, (if i ≠ n / i then i + n / i else i) = i := by
    intro i hi
    rw [hmemB] at hi
    obtain ⟨hdvd, hsq⟩ := hi
    have hi0 : 0 < i := by
      rcases Nat.eq_zero_or_pos i with h | h
      · rw [h, mul_zero] at hsq; omega
      · exact h
    have hdiv : n / i = i := by rw [← hsq, Nat.mul_div_cancel_left i hi0]
    simp [hdiv]
  -- the large divisors are exactly the co-divisors of the small ones
  have hbij : ∑ i ∈ A, n / i = ∑ d ∈ Cc, d := by
    refine Finset.sum_nbij' (fun d => n / d) (fun e => n / e) ?_ ?_ ?_ ?_ ?_
    · intro d hd
      rw [hmemA] at hd
      obtain ⟨hdvd, h2, hlt⟩ := hd
      obtain ⟨e, he⟩ := hdvd
      have hd0 : 0 < d := by omega
      have hdiv : n / d = e := by rw [he, Nat.mul_div_cancel_left e hd0]
      have he0 : 0 < e := by
        rcases Nat.eq_zero_or_pos e with h | h
        · rw [h, mul_zero] at he; omega
        · exact h
      have hde : d < e := by
        refine Nat.lt_of_mul_lt_mul_left (a := d) ?_
        rw [← he]
        exact hlt
      show n / d ∈ Cc
      rw [hmemC, hdiv]
      refine ⟨⟨d, by rw [he, mul_comm]⟩, by nlinarith, by nlinarith⟩
    · intro e he'
      rw [hmemC] at he'
      obtain ⟨hdvd, hlt, hgt⟩ := he'
      obtain ⟨d, hd⟩ := hdvd
      have he0 : 0 < e := by
        rcases Nat.eq_zero_or_pos e with h | h
        · rw [h, zero_mul] at hd; omega
        · exact h
      have hdiv : n / e = d := by rw [hd, Nat.mul_div_cancel_left d he0]
      have hd0 : 0 < d := by
        rcases Nat.eq_zero_or_pos d with h | h
        · rw [h, mul_zero] at hd; omega
        · exact h
      have hde : d < e := by
        refine Nat.lt_of_mul_lt_mul_left (a := e) ?_
        rw [← hd]
        exact hgt
      have hd2 : 2 ≤ d := by
        rcases Nat.lt_or_ge d 2 with h | h
        · interval_cases d
          rw [mul_one] at hd
          omega
        · exact h
      show n / e ∈ A
      rw [hmemA, hdiv]
      exact ⟨⟨e, by rw [hd, mul_comm]⟩, hd2, by nlinarith⟩
    · intro d hd
      rw [hmemA] at hd
      show n / (n / d) = d
      exact Nat.div_div_self hd.1 (by omega)
    · intro e he'
      rw [hmemC] at he'
      show n / (n / e) = e
      exact Nat.div_div_self he'.1 (by omega)
    · intro d _
      rfl
  have hTfinal : ∑ i ∈ Finset.Ico 2 (Nat.sqrt n + 1), contrib n i
      = ∑ i ∈ A, i + ∑ d ∈ Cc, d + ∑ i ∈ B, i := by
    rw [hTsum, hTAB, Finset.sum_union hdisjAB,
      Finset.sum_congr rfl hAval, Finset.sum_congr rfl hBval,
      Finset.sum_add_distrib, hbij]
  rw [hTfinal, hPsum]
  omega

/-- Claim C1: `aliquot_sum` returns `Ok(0)` for `n ≤ 1`, and whenever it
returns `Ok(s)` for `n ≥ 2`, `s` is the sum of all divisors of `n` strictly
below `n`. -/
theorem aliquot_sum_correct (MAX n s : Nat) :
    (n ≤ 1 → aliquotSum MAX n = some 0) ∧
      (2 ≤ n → aliquotSum MAX n = some s →
        s = ∑ d ∈ n.properDivisors, d) := by
  constructor
  · intro h
    simp [aliquotSum, h]
  · intro hn hs
    rw [aliquotSum, if_neg (by omega)] at hs
    have hfold := foldl_sumStep_some MAX n _ _ _ hs
    rw [hfold]
    have hs1 : 1 ≤ Nat.sqrt n := Nat.le_sqrt.mpr (by omega)
    rw [show trialDivisors n = List.range' 2 (Nat.sqrt n + 1 - 2) by
        rw [trialDivisors, isqrt_eq],
      sum_map_range' (contrib n),
      show 2 + (Nat.sqrt n + 1 - 2) = Nat.sqrt n + 1 by omega]
    exact sum_contrib_eq n hn

/-- Witness for C1 at `n = 1` and `n = 12` (proper divisor sum `16`). -/
theorem aliquot_sum_correct_witness :
    aliquotSum 1000000 1 = some 0 ∧ (16 : Nat) = ∑ d ∈ Nat.properDivisors 12, d :=
  ⟨(aliquot_sum_correct 1000000 1 16).1 (by decide),
    (aliquot_sum_correct 1000000 12 16).2 (by decide) (by decide)⟩

/-! ### Claim C9: the trial-division bound -/

/-- Modelled from the spec: the divisor-sum algorithm exactly as claim C9
words it, trial-dividing every integer from `2` up to AND INCLUDING
`⌊√n⌋ + 1` (the loop body and overflow guard as in the source).  Compared
against the source's `aliquotSum`, whose loop stops at `⌊√n⌋`. -/
def aliquotSumClaimC9 (MAX n : Nat) : Option Nat :=
  if n ≤ 1 then some 0
  else (List.range' 2 (Nat.sqrt n + 2 - 2)).foldl (sumStep MAX n) (some 1)

/-- Modelled from the spec with the bound corrected: trial-divide every
integer from `2` up to and including `⌊√n⌋` (floor square root), sum
starting at `1`, adding `i + n/i` per divisor pair (`i` alone on a square
root), with the overflow guard. -/
def aliquotSumDesc (MAX n : Nat) : Option Nat :=
  if n ≤ 1 then some 0
  else (List.range' 2 (Nat.sqrt n + 1 - 2)).foldl (sumStep MAX n) (some 1)

/-- Counterexample to C9 as stated: for `n = 6`, `⌊√6⌋ + 1 = 3` is *not*
among the trial divisors the code visits, and the algorithm the claim
describes (inclusive bound `⌊√6⌋ + 1`) would return `11` — double-counting
the divisor pair `(2, 3)` — where the code returns the correct `6`. -/
theorem trial_bound_claim_false :
    Nat.sqrt 6 + 1 = 3 ∧ 3 ∉ trialDivisors 6 ∧
      aliquotSum 1000 6 = some 6 ∧ aliquotSumClaimC9 1000 6 = some 11 := by
  have hs : Nat.sqrt 6 = 2 := by rw [← isqrt_eq]; decide
  refine ⟨by rw [hs], ?_, by decide, ?_⟩
  · decide
  · rw [aliquotSumClaimC9, hs]
    decide

/-- Claim C9 amended: `aliquot_sum` trial-divides every integer `i` from `2`
up to and including `⌊√n⌋` (the Newton iteration computes the floor square
root, `isqrt_eq`), starting the sum at `1` and adding `i + n/i` for each
divisor `i` (only `i` when `i = n/i`), with the overflow guard. -/
theorem trial_bound_amended (MAX n : Nat) (hn : 2 ≤ n) :
    (∀ i, i ∈ trialDivisors n ↔ 2 ≤ i ∧ i ≤ Nat.sqrt n) ∧
      aliquotSum MAX n = aliquotSumDesc MAX n := by
  have hs1 : 1 ≤ Nat.sqrt n := Nat.le_sqrt.mpr (by omega)
  constructor
  · intro i
    rw [trialDivisors, isqrt_eq, List.mem_range'_1]
    omega
  · rw [aliquotSum, aliquotSumDesc, trialDivisors, isqrt_eq]

/-- Witness for the amended C9 at `n = 6`. -/
theorem trial_bound_amended_witness :
    (∀ i, i ∈ trialDivisors 6 ↔ 2 ≤ i ∧ i ≤ Nat.sqrt 6) ∧
      aliquotSum 1000 6 = aliquotSumDesc 1000 6 :=
  trial_bound_amended 1000 6 (by decide)

/-! ### Claim C7: invariants of the classification views -/

/-- The payload lists the source indexes with `v[0]` are non-empty. -/
def payloadNonempty : AliquotSeq → Prop
  | .convergent v => v ≠ []
  | .sociable v => v ≠ []
  | .aspiring v => v ≠ []
  | .intoCycle v0 _ => v0 ≠ []
  | .unknown v => v ≠ []
  | _ => True

/-- The variants the claim designates as cycling. -/
def isCycleVariant : AliquotSeq → Bool
  | .amicable _ _ => true
  | .sociable _ => true
  | .intoCycle _ _ => true
  | _ => false

/-- Claim C7: with non-empty payloads, `seq()[0] = number()`,
`len() = seq().len()` (`IntoCycle`: leading part plus cycle, `seq()` their
concatenation), and `cycles()` holds exactly on the amicable, sociable and
into-cycle variants. -/
theorem aliquot_seq_views (a : AliquotSeq) (h : payloadNonempty a) :
    a.seq.headD 0 = a.number ∧ a.len = a.seq.length ∧
      (∀ v0 v1, a = .intoCycle v0 v1 →
        a.len = v0.length + v1.length ∧ a.seq = v0 ++ v1) ∧
      a.cycles = isCycleVariant a := by
  cases a with
  | perfect n =>
    simp [AliquotSeq.seq, AliquotSeq.number, AliquotSeq.len, AliquotSeq.cycles,
      isCycleVariant]
  | prime n one =>
    simp [AliquotSeq.seq, AliquotSeq.number, AliquotSeq.len, AliquotSeq.cycles,
      isCycleVariant]
  | convergent v =>
    cases v with
    | nil => exact absurd rfl h
    | cons x t =>
      simp [AliquotSeq.seq, AliquotSeq.number, AliquotSeq.len,
        AliquotSeq.cycles, isCycleVariant]
  | amicable n m =>
    simp [AliquotSeq.seq, AliquotSeq.number, AliquotSeq.len, AliquotSeq.cycles,
      isCycleVariant]
  | sociable v =>
    cases v with
    | nil => exact absurd rfl h
    | cons x t =>
      simp [AliquotSeq.seq, AliquotSeq.number, AliquotSeq.len,
        AliquotSeq.cycles, isCycleVariant]
  | aspiring v =>
    cases v with
    | nil => exact absurd rfl h
    | cons x t =>
      simp [AliquotSeq.seq, AliquotSeq.number, AliquotSeq.len,
        AliquotSeq.cycles, isCycleVariant]
  | intoCycle v0 v1 =>
    cases v0 with
    | nil => exact absurd rfl h
    | cons x t =>
      refine ⟨?_, ?_, ?_, ?_⟩
      all_goals
        simp [AliquotSeq.seq, AliquotSeq.number, AliquotSeq.len,
          AliquotSeq.cycles, isCycleVariant]
      all_goals omega
  | unknown v =>
    cases v with
    | nil => exact absurd rfl h
    | cons x t =>
      simp [AliquotSeq.seq, AliquotSeq.number, AliquotSeq.len,
        AliquotSeq.cycles, isCycleVariant]

/-- Witness for C7 at a concrete `IntoCycle` value. -/
theorem aliquot_seq_views_witness :
    (AliquotSeq.intoCycle [562] [284, 220]).seq.headD 0
        = (AliquotSeq.intoCycle [562] [284, 220]).number ∧
      (AliquotSeq.intoCycle [562] [284, 220]).len
        = (AliquotSeq.intoCycle [562] [284, 220]).seq.length ∧
      (∀ v0 v1, AliquotSeq.intoCycle [562] [284, 220] = .intoCycle v0 v1 →
        (AliquotSeq.intoCycle [562] [284, 220]).len
            = v0.length + v1.length ∧
          (AliquotSeq.intoCycle [562] [284, 220]).seq = v0 ++ v1) ∧
      (AliquotSeq.intoCycle [562] [284, 220]).cycles
        = isCycleVariant (AliquotSeq.intoCycle [562] [284, 220]) :=
  aliquot_seq_views (AliquotSeq.intoCycle [562] [284, 220]) (by
    simp [payloadNonempty])

/-! ### Claim C8: inputs 0 and 1 -/

/-- Claim C8: for `n = 0` and `n = 1` the classifier returns `Unknown([n])`
immediately, performs no divisor-sum computation, and leaves the cache
completely unchanged (the result is not inserted). -/
theorem aliquot_seq_zero_one (MAX maxNum maxLenSeq : Nat) (c : Cache) :
    aliquotSeq MAX maxNum maxLenSeq c 0 = ⟨.unknown [0], c, 0⟩ ∧
      aliquotSeq MAX maxNum maxLenSeq c 1 = ⟨.unknown [1], c, 0⟩ := by
  constructor <;> simp [aliquotSeq]

/-! ### Cache lemmas (claims C2, C3, C4) -/

/-- Lookup after the `add_seq_lut` registration fold: a member of the list
greater than `1` maps to `n`, anything else is looked up as before. -/
lemma lut_foldl_lookup (n : Nat) :
    ∀ (l : List Nat) (f0 : Nat → Option Nat) (x : Nat),
      (l.foldl (fun f s => if 1 < s then mapInsert f s n else f) f0) x
        = if x ∈ l ∧ 1 < x then some n else f0 x := by
  intro l
  induction l with
  | nil => intro f0 x; simp
  | cons s t ih =>
    intro f0 x
    rw [List.foldl_cons, ih]
    by_cases hxt : x ∈ t ∧ 1 < x
    · rw [if_pos hxt, if_pos ⟨List.mem_cons_of_mem s hxt.1, hxt.2⟩]
    · rw [if_neg hxt]
      by_cases hs : 1 < s
      · rw [if_pos hs]
        by_cases hxs : x = s
        · subst hxs
          rw [show mapInsert f0 x n x = some n by simp [mapInsert],
            if_pos ⟨List.mem_cons_self x t, hs⟩]
        · rw [show mapInsert f0 s n x = f0 x by simp [mapInsert, hxs]]
          rw [if_neg ?_]
          rintro ⟨hmem, hx1⟩
          rcases List.mem_cons.mp hmem with h | h
          · exact hxs h
          · exact hxt ⟨h, hx1⟩
      · rw [if_neg hs, if_neg ?_]
        rintro ⟨hmem, hx1⟩
        rcases List.mem_cons.mp hmem with h | h
        · exact hs (h ▸ hx1)
        · exact hxt ⟨h, hx1⟩

/-- On a duplicate-free list the position search of `Cache::get` finds the
index of the element looked up. -/
lemma findPos_nodup :
    ∀ (v : List Nat) (i : Nat), i < v.length → v.Nodup →
      Cache.findPos (v.getD i 0) v = some i := by
  intro v
  induction v with
  | nil => intro i hi _; simp at hi
  | cons x t ih =>
    intro i hi hnd
    rw [List.nodup_cons] at hnd
    obtain ⟨hx, hnd⟩ := hnd
    match i with
    | 0 => simp [Cache.findPos, List.findIdx?_cons]
    | i + 1 =>
      have hit : i < t.length := by simpa using hi
      have hmem : t.getD i 0 ∈ t := by
        rw [List.getD_eq_getElem t 0 hit]
        exact List.getElem_mem hit
      have hxne : ¬x = t.getD i 0 := fun h => hx (h ▸ hmem)
      show Cache.findPos ((x :: t).getD (i + 1) 0) (x :: t) = some (i + 1)
      rw [show (x :: t).getD (i + 1) 0 = t.getD i 0 by simp]
      rw [Cache.findPos, List.findIdx?_cons, if_neg (by simpa using hxne),
        List.findIdx?_succ]
      have := ih i hit hnd
      rw [Cache.findPos] at this
      rw [this]
      rfl

lemma getD_mem_drop_one (v : List Nat) (i : Nat) (h1 : 1 ≤ i)
    (h2 : i < v.length) : v.getD i 0 ∈ v.drop 1 := by
  have hlen : i - 1 < (v.drop 1).length := by
    simp only [List.length_drop]
    omega
  have heq : (v.drop 1).getD (i - 1) 0 = v.getD i 0 := by
    rw [List.getD_eq_getElem _ 0 hlen, List.getD_eq_getElem _ 0 h2,
      List.getElem_drop]
    congr 1
    omega
  rw [← heq, List.getD_eq_getElem _ 0 hlen]
  exact List.getElem_mem hlen

lemma getD_ne_headD (v : List Nat) (i : Nat) (h1 : 1 ≤ i)
    (h2 : i < v.length) (hnd : v.Nodup) : v.getD i 0 ≠ v.headD 0 := by
  cases v with
  | nil => simp at h2
  | cons x t =>
    rw [List.nodup_cons] at hnd
    have hmem : (x :: t).getD i 0 ∈ (x :: t).drop 1 :=
      getD_mem_drop_one _ i h1 h2
    simp only [List.drop_one, List.tail_cons] at hmem
    simp only [List.headD_cons]
    exact fun h => hnd.1 (h ▸ hmem)

/-- The cache fields after an accepted insertion of a list variant
(`Convergent`, `SociableNumber`, `AspiringNumber`, `Unknown` carrying `v`):
the map gains the entry at `v[0]`, the LUT gains the later members. -/
lemma add_list_fields (c0 : Cache) (a : AliquotSeq) (v : List Nat)
    (hva : a = .convergent v ∨ a = .sociable v ∨ a = .aspiring v ∨
      a = .unknown v)
    (hbud : a.len < c0.maxCacheSize - c0.cacheCount)
    (hfresh : c0.cacheMap a.number = none) :
    (c0.add a).cacheMap = mapInsert c0.cacheMap (v.headD 0) a ∧
      (c0.add a).cacheLut
        = (v.drop 1).foldl
            (fun f x => if 1 < x then mapInsert f x (v.headD 0) else f)
            c0.cacheLut := by
  rcases hva with rfl | rfl | rfl | rfl <;>
    simp_all [Cache.add, Cache.addSeqLut, AliquotSeq.len, AliquotSeq.number]

/-- The cache fields after an accepted insertion of an `IntoCycle`: only the
leading part `v` is registered in the LUT. -/
lemma add_intoCycle_fields (c0 : Cache) (v cyc : List Nat)
    (hbud : (AliquotSeq.intoCycle v cyc).len
      < c0.maxCacheSize - c0.cacheCount)
    (hfresh : c0.cacheMap (v.headD 0) = none) :
    (c0.add (.intoCycle v cyc)).cacheMap
        = mapInsert c0.cacheMap (v.headD 0) (.intoCycle v cyc) ∧
      (c0.add (.intoCycle v cyc)).cacheLut
        = (v.drop 1).foldl
            (fun f x => if 1 < x then mapInsert f x (v.headD 0) else f)
            c0.cacheLut := by
  simp_all [Cache.add, Cache.addSeqLut, AliquotSeq.len, AliquotSeq.number]

/-! ### Claim C2: the cache round-trip -/

/-- Counterexample to C2 as stated: classifying `562` finalizes
`IntoCycle([562], [284, 220])` (flattened `[562, 284, 220]`), and it is
cached; but `get(284)` — interior position `i = 1` of the flattened
sequence — returns nothing, because `Cache::add` registers only the leading
part of an `IntoCycle` in the LUT, never the cycle members. -/
theorem cache_roundtrip_claim_false :
    (aliquotSeq 1000000 1000000 50 (Cache.new 1000) 562).res
        = .intoCycle [562] [284, 220] ∧
      (aliquotSeq 1000000 1000000 50 (Cache.new 1000) 562).cache.get 284
        = none := by
  constructor
  · decide
  · decide

/-- Claim C2 amended: the round-trip holds for interior members `vi > 1` of
the *primary* list of a freshly inserted classification — the whole
flattened sequence for `Convergent`/`AspiringNumber`/`Unknown` (tail
reconstruction; interior positions never hold `1`, which only terminates a
sequence) and `SociableNumber` (rotation), but only the leading-part
positions of an `IntoCycle`; cycle members of an `IntoCycle` are not
reconstructable. -/
theorem cache_roundtrip_amended (c0 : Cache) (v cyc : List Nat) (i : Nat)
    (h0 : 0 < i) (hi : i + 1 < v.length) (hnd : v.Nodup)
    (hx1 : 1 < v.getD i 0)
    (hfresh : c0.cacheMap (v.headD 0) = none)
    (hfreshi : c0.cacheMap (v.getD i 0) = none)
    (hbud : v.length < c0.maxCacheSize - c0.cacheCount)
    (hbudIC : v.length + cyc.length < c0.maxCacheSize - c0.cacheCount) :
    (c0.add (.convergent v)).get (v.getD i 0)
        = some (.convergent (v.drop i)) ∧
      (c0.add (.aspiring v)).get (v.getD i 0)
        = some (.aspiring (v.drop i)) ∧
      (c0.add (.unknown v)).get (v.getD i 0)
        = some (.unknown (v.drop i)) ∧
      (c0.add (.sociable v)).get (v.getD i 0)
        = some (.sociable (v.drop i ++ v.take i)) ∧
      (c0.add (.intoCycle v cyc)).get (v.getD i 0)
        = some (.intoCycle (v.drop i) cyc) := by
  have hilen : i < v.length := by omega
  have hxmem : v.getD i 0 ∈ v.drop 1 := getD_mem_drop_one v i (by omega) hilen
  have hne : v.getD i 0 ≠ v.headD 0 := getD_ne_headD v i (by omega) hilen hnd
  have hfind : Cache.findPos (v.getD i 0) v = some i := findPos_nodup v i hilen hnd
  have hposlt : i < v.length - 1 := by omega
  refine ⟨?_, ?_, ?_, ?_, ?_⟩
  · obtain ⟨hm, hl⟩ := add_list_fields c0 (.convergent v) v (Or.inl rfl)
      (by simpa [AliquotSeq.len] using hbud)
      (by simpa [AliquotSeq.number] using hfresh)
    have hlx : (c0.add (.convergent v)).cacheLut (v.getD i 0)
        = some (v.headD 0) := by
      rw [hl, lut_foldl_lookup, if_pos ⟨hxmem, hx1⟩]
    rw [Cache.get, hm]
    simp only [mapInsert, if_neg hne, hfreshi, hlx, ite_true, hfind,
      if_pos hposlt]
  · obtain ⟨hm, hl⟩ := add_list_fields c0 (.aspiring v) v
      (Or.inr (Or.inr (Or.inl rfl)))
      (by simpa [AliquotSeq.len] using hbud)
      (by simpa [AliquotSeq.number] using hfresh)
    have hlx : (c0.add (.aspiring v)).cacheLut (v.getD i 0)
        = some (v.headD 0) := by
      rw [hl, lut_foldl_lookup, if_pos ⟨hxmem, hx1⟩]
    rw [Cache.get, hm]
    simp only [mapInsert, if_neg hne, hfreshi, hlx, ite_true, hfind,
      if_pos hposlt]
  · obtain ⟨hm, hl⟩ := add_list_fields c0 (.unknown v) v
      (Or.inr (Or.inr (Or.inr rfl)))
      (by simpa [AliquotSeq.len] using hbud)
      (by simpa [AliquotSeq.number] using hfresh)
    have hlx : (c0.add (.unknown v)).cacheLut (v.getD i 0)
        = some (v.headD 0) := by
      rw [hl, lut_foldl_lookup, if_pos ⟨hxmem, hx1⟩]
    rw [Cache.get, hm]
    simp only [mapInsert, if_neg hne, hfreshi, hlx, ite_true, hfind,
      if_pos hposlt]
  · obtain ⟨hm, hl⟩ := add_list_fields c0 (.sociable v) v (Or.inr (Or.inl rfl))
      (by simpa [AliquotSeq.len] using hbud)
      (by simpa [AliquotSeq.number] using hfresh)
    have hlx : (c0.add (.sociable v)).cacheLut (v.getD i 0)
        = some (v.headD 0) := by
      rw [hl, lut_foldl_lookup, if_pos ⟨hxmem, hx1⟩]
    rw [Cache.get, hm]
    simp only [mapInsert, if_neg hne, hfreshi, hlx, ite_true, hfind]
  · obtain ⟨hm, hl⟩ := add_intoCycle_fields c0 v cyc
      (by simpa [AliquotSeq.len] using hbudIC)
      (by simpa [AliquotSeq.number] using hfresh)
    have hlx : (c0.add (.intoCycle v cyc)).cacheLut (v.getD i 0)
        = some (v.headD 0) := by
      rw [hl, lut_foldl_lookup, if_pos ⟨hxmem, hx1⟩]
    rw [Cache.get, hm]
    simp only [mapInsert, if_neg hne, hfreshi, hlx, ite_true, hfind]

/-- Witness for the amended C2 on a fresh cache with the genuine finalized
convergent sequence of `12`, `v = [12, 16, 15, 9, 4, 3, 1]` (ending in `1`
as every finalized `Convergent` does), `cyc = [220, 284]`, interior
position `i = 1` (member `16`). -/
theorem cache_roundtrip_amended_witness :
    ((Cache.new 100).add (.convergent [12, 16, 15, 9, 4, 3, 1])).get 16
        = some (.convergent [16, 15, 9, 4, 3, 1]) ∧
      ((Cache.new 100).add (.aspiring [12, 16, 15, 9, 4, 3, 1])).get 16
        = some (.aspiring [16, 15, 9, 4, 3, 1]) ∧
      ((Cache.new 100).add (.unknown [12, 16, 15, 9, 4, 3, 1])).get 16
        = some (.unknown [16, 15, 9, 4, 3, 1]) ∧
      ((Cache.new 100).add (.sociable [12, 16, 15, 9, 4, 3, 1])).get 16
        = some (.sociable [16, 15, 9, 4, 3, 1, 12]) ∧
      ((Cache.new 100).add
          (.intoCycle [12, 16, 15, 9, 4, 3, 1] [220, 284])).get 16
        = some (.intoCycle [16, 15, 9, 4, 3, 1] [220, 284]) := by
  have h := cache_roundtrip_amended (Cache.new 100) [12, 16, 15, 9, 4, 3, 1]
    [220, 284] 1 (by decide) (by decide) (by decide) (by decide)
    (by decide) (by decide) (by decide) (by decide)
  exact h

/-! ### Claim C3: the count delta of an insert -/

/-- The number of LUT slots `Cache::add_seq_lut` accounts for (the primary
list length minus one, also charged to `cache_count`). -/
def lutDelta : AliquotSeq → Nat
  | .convergent v => v.length - 1
  | .sociable v => v.length - 1
  | .aspiring v => v.length - 1
  | .intoCycle v _ => v.length - 1
  | .unknown v => v.length - 1
  | _ => 0

/-- Counterexample to C3 as stated: an accepted insert of
`Convergent([4, 3, 1])` (`len = 3`) into a fresh cache raises `count()` from
`0` to `5`, not by `len = 3` — `add_seq_lut` charges `len - 1` on top of the
`len` charged by `add`. -/
theorem cache_count_claim_false :
    ((Cache.new 100).add (.convergent [4, 3, 1])).count = 5 ∧
      (AliquotSeq.convergent [4, 3, 1]).len = 3 ∧
      (Cache.new 100).count = 0 := by
  refine ⟨?_, by decide, by decide⟩
  decide

/-- Claim C3 amended: an accepted insert increases `count()` by
`len + lutDelta` (twice the primary list length minus one for the LUT
variants, plain `len` for `PerfectNumber`/`PrimeNumber`/`AmicableNumber`);
a rejected or duplicate insert leaves `count()` unchanged. -/
theorem cache_count_delta (c : Cache) (a : AliquotSeq) :
    (a.len < c.maxCacheSize - c.cacheCount →
      c.cacheMap a.number = none →
        (c.add a).count = c.count + a.len + lutDelta a) ∧
      (¬a.len < c.maxCacheSize - c.cacheCount → (c.add a).count = c.count) ∧
      ((c.cacheMap a.number).isSome = true → (c.add a).count = c.count) := by
  refine ⟨?_, ?_, ?_⟩
  · intro h1 h2
    cases a <;>
      simp_all [Cache.add, Cache.addSeqLut, Cache.count, AliquotSeq.len,
        AliquotSeq.number, lutDelta] <;>
      omega
  · intro h1
    simp only [Cache.add, Cache.count]
    rw [if_neg h1]
  · intro h2
    simp only [Cache.add, Cache.count]
    by_cases h1 : a.len < c.maxCacheSize - c.cacheCount
    · rw [if_pos h1, if_pos h2]
    · rw [if_neg h1]

/-- Witness for the amended C3: accepted insert of `Convergent([4, 3, 1])`
(delta `3 + 2 = 5`), rejected insert on a zero-budget cache. -/
theorem cache_count_delta_witness :
    ((Cache.new 100).add (.convergent [4, 3, 1])).count
        = (Cache.new 100).count + (AliquotSeq.convergent [4, 3, 1]).len
          + lutDelta (.convergent [4, 3, 1]) ∧
      ((Cache.new 0).add (.perfect 6)).count = (Cache.new 0).count :=
  ⟨(cache_count_delta (Cache.new 100) (.convergent [4, 3, 1])).1 (by decide)
      (by decide),
    ((cache_count_delta (Cache.new 0) (.perfect 6)).2.1 (by decide))⟩

/-! ### Claim C4: the budget is not actually enforced -/

/-- Claim C4 is false of the code: the guard in `Cache::add` tests only
`len` against the remaining budget but then charges `len + (len - 1)` for a
list variant, so `cache_count` overshoots `max_cache_size`: inserting
`Convergent([12, 16, 15, 9, 4, 3, 1])` (`len = 7 < 10`) into a fresh cache
of capacity `10` leaves `count() = 13 > 10`.  The next `add` then evaluates
`max_cache_size - cache_count = 10usize - 13`, which underflows (a panic in
a debug build, a wrap to a huge budget in a release build). -/
theorem cache_budget_overrun :
    ((Cache.new 10).add (.convergent [12, 16, 15, 9, 4, 3, 1])).count = 13 ∧
      ((Cache.new 10).add
        (.convergent [12, 16, 15, 9, 4, 3, 1])).maxCacheSize = 10 ∧
      10 < 13 := by
  refine ⟨?_, by decide, by decide⟩
  decide

/-! ### Classifier loop lemmas (claims C5, C6) -/

lemma headD_append (s t : List Nat) (h : s ≠ []) :
    (s ++ t).headD 0 = s.headD 0 := by
  cases s with
  | nil => exact absurd rfl h
  | cons x s' => rfl

lemma headD_take (s : List Nat) (j : Nat) (hj : 1 ≤ j) (h : s ≠ []) :
    (s.take j).headD 0 = s.headD 0 := by
  cases s with
  | nil => exact absurd rfl h
  | cons x s' =>
    cases j with
    | zero => omega
    | succ j => rfl

lemma findPos_isSome (x : Nat) (s : List Nat) (h : x ∈ s) :
    ∃ j, Cache.findPos x s = some j := by
  rcases hf : Cache.findPos x s with _ | j
  · rw [Cache.findPos, List.findIdx?_eq_none_iff] at hf
    have := hf x h
    simp at this
  · exact ⟨j, rfl⟩

lemma findPos_zero (x a : Nat) (t : List Nat)
    (h : Cache.findPos x (a :: t) = some 0) : a = x := by
  rw [Cache.findPos, List.findIdx?_cons] at h
  by_cases ha : a = x
  · exact ha
  · rw [if_neg (by simpa using ha), List.findIdx?_succ] at h
    rcases hft : List.findIdx? (fun y => decide (y = x)) t with _ | j <;>
      rw [hft] at h <;> simp at h

/-- Every exit of the classifier loop either leaves the cache untouched (the
mirrored-amicable return) or passes the produced classification through
`Cache::add`. -/
lemma aliquotLoop_cache_cases (MAX maxNum n : Nat) :
    ∀ fuel s lut (c : Cache) calls,
      (aliquotLoop MAX maxNum n fuel s lut c calls).cache = c ∨
        (aliquotLoop MAX maxNum n fuel s lut c calls).cache
          = c.add (aliquotLoop MAX maxNum n fuel s lut c calls).res := by
  intro fuel
  induction fuel with
  | zero =>
    intro s lut c calls
    right
    rfl
  | succ f ih =>
    intro s lut c calls
    rcases hsum : aliquotSum MAX (s.getLastD 0) with _ | next
    · simp only [aliquotLoop, hsum]
      simp
    · simp only [aliquotLoop, hsum]
      by_cases hmax : maxNum ≤ next
      · simp only [if_pos hmax]
        simp
      · simp only [if_neg hmax]
        rcases hget : c.get next with _ | cached
        · simp only [hget]
          by_cases h1 : next = 1
          · simp only [if_pos h1]
            by_cases hlen : s.length = 1
            · simp only [if_pos hlen]
              simp
            · simp only [if_neg hlen]
              simp
          · simp only [if_neg h1]
            by_cases h2 : next = n
            · simp only [if_pos h2]
              rcases hsl : s.length with _ | _ | _ | m
              all_goals simp only [hsl]
              all_goals simp
            · simp only [if_neg h2]
              by_cases h3 : next = s.getLastD 0
              · simp only [if_pos h3]
                simp
              · simp only [if_neg h3]
                by_cases h4 : next ∈ lut
                · simp only [if_pos h4]
                  simp
                · simp only [if_neg h4]
                  exact ih (s ++ [next]) (lut ++ [next]) c (calls + 1)
        · simp only [hget]
          cases cached with
          | amicable a0 a1 =>
            by_cases hrev : a0 = next ∧ a1 = n
            · simp only [if_pos hrev]
              simp
            · simp only [if_neg hrev]
              simp
          | perfect p => simp
          | prime p one => simp
          | convergent v => simp
          | sociable v => simp
          | aspiring v => simp
          | intoCycle v0 v1 => simp
          | unknown v => simp

/-- The classification the loop produces is keyed by the starting number:
its `number()` is `n`, provided the sequence so far starts with `n` and the
transient set only holds members of the sequence. -/
lemma aliquotLoop_number (MAX maxNum n : Nat) :
    ∀ fuel s lut (c : Cache) calls, s.headD 0 = n → s ≠ [] →
      (∀ x ∈ lut, x ∈ s) →
      (aliquotLoop MAX maxNum n fuel s lut c calls).res.number = n := by
  intro fuel
  induction fuel with
  | zero =>
    intro s lut c calls hhead hne _
    simpa [aliquotLoop, AliquotSeq.number] using hhead
  | succ f ih =>
    intro s lut c calls hhead hne hsub
    rcases hsum : aliquotSum MAX (s.getLastD 0) with _ | next
    · simp only [aliquotLoop, hsum, AliquotSeq.number]
      exact hhead
    · simp only [aliquotLoop, hsum]
      by_cases hmax : maxNum ≤ next
      · simp only [if_pos hmax, AliquotSeq.number]
        exact hhead
      · simp only [if_neg hmax]
        rcases hget : c.get next with _ | cached
        · simp only [hget]
          by_cases h1 : next = 1
          · simp only [if_pos h1]
            by_cases hlen : s.length = 1
            · simp only [if_pos hlen, AliquotSeq.number]
            · simp only [if_neg hlen, AliquotSeq.number]
              rw [headD_append s [1] hne]
              exact hhead
          · simp only [if_neg h1]
            by_cases h2 : next = n
            · simp only [if_pos h2]
              rcases hsl : s.length with _ | _ | _ | m
              all_goals simp only [hsl, AliquotSeq.number]
              · exact hhead
              · exact hhead
            · simp only [if_neg h2]
              by_cases h3 : next = s.getLastD 0
              · simp only [if_pos h3, AliquotSeq.number]
                exact hhead
              · simp only [if_neg h3]
                by_cases h4 : next ∈ lut
                · simp only [if_pos h4, AliquotSeq.number]
                  obtain ⟨j, hj⟩ := findPos_isSome next s (hsub next h4)
                  have hj1 : 1 ≤ j := by
                    rcases Nat.eq_zero_or_pos j with h0 | h0
                    · subst h0
                      cases s with
                      | nil => exact absurd rfl hne
                      | cons a t =>
                        have := findPos_zero next a t hj
                        simp only [List.headD_cons] at hhead
                        exact absurd (this ▸ hhead) h2
                    · exact h0
                  rw [hj]
                  simp only [Option.getD_some]
                  rw [headD_take s j hj1 hne]
                  exact hhead
                · simp only [if_neg h4]
                  refine ih (s ++ [next]) (lut ++ [next]) c (calls + 1) ?_
                    (by simp) ?_
                  · rw [headD_append s [next] hne]
                    exact hhead
                  · intro x hx
                    rcases List.mem_append.mp hx with h | h
                    · exact List.mem_append_left _ (hsub x h)
                    · exact List.mem_append_right _ h
        · simp only [hget]
          cases cached with
          | amicable a0 a1 =>
            by_cases hrev : a0 = next ∧ a1 = n
            · simp only [if_pos hrev, AliquotSeq.number]
            · simp only [if_neg hrev, AliquotSeq.number]
              exact hhead
          | perfect p =>
            simp only [AliquotSeq.number]
            rw [headD_append s [p] hne]
            exact hhead
          | prime p one =>
            simp only [AliquotSeq.number]
            rw [headD_append s [p, one] hne]
            exact hhead
          | convergent v =>
            simp only [AliquotSeq.number]
            rw [headD_append s v hne]
            exact hhead
          | sociable v =>
            simp only [AliquotSeq.number]
            exact hhead
          | aspiring v =>
            simp only [AliquotSeq.number]
            rw [headD_append s v hne]
            exact hhead
          | intoCycle v0 v1 =>
            simp only [AliquotSeq.number]
            rw [headD_append s v0 hne]
            exact hhead
          | unknown v =>
            simp only [AliquotSeq.number]
            rw [headD_append s v hne]
            exact hhead

/-! ### Claim C6: divisor-sum overflow degrades to Unknown -/

/-- Claim C6: when `aliquot_sum` of the last member fails with overflow at
any step, the classifier does not propagate the error: it finalizes
`Unknown` with the sequence built so far, passes it through `Cache::add`,
and returns it.  The second conjunct instantiates this at the classifier
entry point when the overflow happens on the first step. -/
theorem overflow_finalizes_unknown (MAX maxNum n : Nat) :
    (∀ fuel s lut (c : Cache) calls,
      aliquotSum MAX (s.getLastD 0) = none →
        aliquotLoop MAX maxNum n (fuel + 1) s lut c calls
          = ⟨.unknown s, c.add (.unknown s), calls + 1⟩) ∧
      (∀ (maxLenSeq : Nat) (c : Cache), 2 ≤ maxLenSeq → ¬(n = 0 ∨ n = 1) →
        c.get n = none → aliquotSum MAX n = none →
          aliquotSeq MAX maxNum maxLenSeq c n
            = ⟨.unknown [n], c.add (.unknown [n]), 1⟩) := by
  have hpart1 : ∀ fuel s lut (c : Cache) calls,
      aliquotSum MAX (s.getLastD 0) = none →
        aliquotLoop MAX maxNum n (fuel + 1) s lut c calls
          = ⟨.unknown s, c.add (.unknown s), calls + 1⟩ := by
    intro fuel s lut c calls hov
    simp only [aliquotLoop, hov]
  refine ⟨hpart1, ?_⟩
  intro maxLenSeq c hlen hn01 hget hov
  have h1 := hpart1 (maxLenSeq - 2) [n] [] c 0 (by simpa using hov)
  simp only [aliquotSeq, hn01, if_false, hget]
  rw [show maxLenSeq - 1 = maxLenSeq - 2 + 1 by omega]
  exact h1

/-- Witness for C6: with domain maximum `12`, `aliquot_sum(12)` overflows
(`9 + 7 > 12`), so classifying `12` yields `Unknown([12])`, cached. -/
theorem overflow_finalizes_unknown_witness :
    aliquotLoop 12 12 12 5 [12] [] (Cache.new 100) 0
        = ⟨.unknown [12], (Cache.new 100).add (.unknown [12]), 1⟩ ∧
      aliquotSeq 12 12 50 (Cache.new 100) 12
        = ⟨.unknown [12], (Cache.new 100).add (.unknown [12]), 1⟩ :=
  ⟨(overflow_finalizes_unknown 12 12 12).1 4 [12] [] (Cache.new 100) 0
      (by decide),
    (overflow_finalizes_unknown 12 12 12).2 50 (Cache.new 100) (by decide)
      (by decide) (by decide) (by decide)⟩

/-! ### Claim C5: idempotence of the classifier -/

/-- Counterexample to C5 as stated: on a generator whose cache has capacity
`0`, classifying `2` twice returns identical results, but the second call is
*not* served from the cache — it performs one divisor-sum computation again
(the claim says none), because the first result was rejected by the budget
check and never stored. -/
theorem classifier_idempotent_claim_false :
    (aliquotSeq 1000000 100 50 (Cache.new 0) 2).res = .prime 2 1 ∧
      (aliquotSeq 1000000 100 50
          (aliquotSeq 1000000 100 50 (Cache.new 0) 2).cache 2).res
        = .prime 2 1 ∧
      (aliquotSeq 1000000 100 50
          (aliquotSeq 1000000 100 50 (Cache.new 0) 2).cache 2).calls = 1 :=
  ⟨by decide, by decide, by decide⟩

/-- Claim C5 amended: the two calls always return bit-identical
classifications; and whenever the first call's result actually got stored
under `n`, the second call is served from the cache — it performs no
divisor-sum computation and leaves the cache unchanged. -/
theorem classifier_idempotent (MAX maxNum maxLenSeq : Nat) (c0 : Cache)
    (n : Nat) :
    (aliquotSeq MAX maxNum maxLenSeq
        (aliquotSeq MAX maxNum maxLenSeq c0 n).cache n).res
      = (aliquotSeq MAX maxNum maxLenSeq c0 n).res ∧
      ((aliquotSeq MAX maxNum maxLenSeq c0 n).cache.cacheMap n
          = some (aliquotSeq MAX maxNum maxLenSeq c0 n).res →
        (aliquotSeq MAX maxNum maxLenSeq
            (aliquotSeq MAX maxNum maxLenSeq c0 n).cache n).calls = 0 ∧
          (aliquotSeq MAX maxNum maxLenSeq
              (aliquotSeq MAX maxNum maxLenSeq c0 n).cache n).cache
            = (aliquotSeq MAX maxNum maxLenSeq c0 n).cache) := by
  by_cases hn01 : n = 0 ∨ n = 1
  · constructor
    · simp [aliquotSeq, hn01]
    · intro _
      constructor <;> simp [aliquotSeq, hn01]
  · rcases hget : c0.get n with _ | a
    · -- the first call ran the loop
      have hcm0 : c0.cacheMap n = none := by
        rcases h : c0.cacheMap n with _ | a'
        · rfl
        · rw [Cache.get, h] at hget
          simp at hget
      have ho1 : aliquotSeq MAX maxNum maxLenSeq c0 n
          = aliquotLoop MAX maxNum n (maxLenSeq - 1) [n] [] c0 0 := by
        simp [aliquotSeq, hn01, hget]
      have hnum : (aliquotLoop MAX maxNum n
          (maxLenSeq - 1) [n] [] c0 0).res.number = n :=
        aliquotLoop_number MAX maxNum n (maxLenSeq - 1) [n] [] c0 0
          (by simp) (by simp) (by simp)
      rcases aliquotLoop_cache_cases MAX maxNum n (maxLenSeq - 1) [n] [] c0 0
        with hc | hc
      · -- the loop left the cache untouched
        have hceq : (aliquotSeq MAX maxNum maxLenSeq c0 n).cache = c0 := by
          rw [ho1]
          exact hc
        constructor
        · rw [hceq]
        · intro hmap
          rw [hceq, hcm0] at hmap
          exact absurd hmap (by simp)
      · -- the loop passed its result through Cache::add
        by_cases hbudok : (aliquotLoop MAX maxNum n
            (maxLenSeq - 1) [n] [] c0 0).res.len
            < c0.maxCacheSize - c0.cacheCount
        · -- accepted insert: the second call is a direct hit
          have hmapn : (c0.add (aliquotLoop MAX maxNum n
              (maxLenSeq - 1) [n] [] c0 0).res).cacheMap n
              = some (aliquotLoop MAX maxNum n
                  (maxLenSeq - 1) [n] [] c0 0).res := by
            simp [Cache.add, hnum, hcm0, hbudok, mapInsert]
          have hgethit : (c0.add (aliquotLoop MAX maxNum n
              (maxLenSeq - 1) [n] [] c0 0).res).get n
              = some (aliquotLoop MAX maxNum n
                  (maxLenSeq - 1) [n] [] c0 0).res := by
            rw [Cache.get, hmapn]
          have h2nd : aliquotSeq MAX maxNum maxLenSeq
              (c0.add (aliquotLoop MAX maxNum n
                (maxLenSeq - 1) [n] [] c0 0).res) n
              = ⟨(aliquotLoop MAX maxNum n (maxLenSeq - 1) [n] [] c0 0).res,
                  c0.add (aliquotLoop MAX maxNum n
                    (maxLenSeq - 1) [n] [] c0 0).res, 0⟩ := by
            simp [aliquotSeq, hn01, hgethit]
          refine ⟨?_, fun _ => ⟨?_, ?_⟩⟩ <;> rw [ho1, hc, h2nd]
        · -- rejected insert: the cache is unchanged after all
          have hadd : c0.add (aliquotLoop MAX maxNum n
              (maxLenSeq - 1) [n] [] c0 0).res = c0 := by
            simp only [Cache.add]
            rw [if_neg hbudok]
          have hceq : (aliquotSeq MAX maxNum maxLenSeq c0 n).cache = c0 := by
            rw [ho1, hc, hadd]
          constructor
          · rw [hceq]
          · intro hmap
            rw [hceq, hcm0] at hmap
            exact absurd hmap (by simp)
    · -- the first call was itself a cache hit
      have ho1 : aliquotSeq MAX maxNum maxLenSeq c0 n = ⟨a, c0, 0⟩ := by
        simp [aliquotSeq, hn01, hget]
      constructor
      · simp [ho1, aliquotSeq, hn01, hget]
      · intro _
        constructor <;> simp [ho1, aliquotSeq, hn01, hget]

/-- Witness for the amended C5 at `n = 6` on a fresh cache of capacity
`100`: the first result is cached, so the second call is a hit with zero
divisor-sum computations. -/
theorem classifier_idempotent_witness :
    (aliquotSeq 1000000 1000 50
        (aliquotSeq 1000000 1000 50 (Cache.new 100) 6).cache 6).res
      = (aliquotSeq 1000000 1000 50 (Cache.new 100) 6).res ∧
      (aliquotSeq 1000000 1000 50
          (aliquotSeq 1000000 1000 50 (Cache.new 100) 6).cache 6).calls
        = 0 :=
  ⟨(classifier_idempotent 1000000 1000 50 (Cache.new 100) 6).1,
    ((classifier_idempotent 1000000 1000 50 (Cache.new 100) 6).2
      (by decide)).1⟩

/-! ### Claim C10: the positional range token (src/main.rs lines 84-99)

For a token `START-END` whose numerals parse as `u64`, `run()` computes
`end = u64::from_str(&end_str[1..])? + 1` and reports
`AliquotError::InvalidRange` iff `end < start`, otherwise pushing the
half-open range `start..end`.  The `+ 1` is `u64` arithmetic (wrapping
modulo `2^64` in a release build). -/

/-- The range-token decision of `run()`: `none` is the reported
invalid-range error, `some (start, end)` the accepted half-open range. -/
def parseRangeToken (start e : Nat) : Option (Nat × Nat) :=
  let e1 := (e + 1) % 2 ^ 64
  if e1 < start then none else some (start, e1)

/-- Counterexample to C10 as stated: the token `5-4` has `END = 4 < 5 =
START`, so the claim demands an invalid-range error; the code compares
`END + 1 = 5 < 5`, which is false, and silently accepts the empty range
`5..5`. -/
theorem range_error_claim_false : parseRangeToken 5 4 = some (5, 5) := by
  decide

/-- Claim C10 amended: for `END < u64::MAX`, `run()` reports an
invalid-range error if and only if `END + 1 < START`; every token with
`START ≤ END + 1` is accepted as the half-open range `START..END+1`, i.e.
the inclusive range from `START` to `END` (empty when `END = START - 1`). -/
theorem range_error_amended (start e : Nat) (he : e < 2 ^ 64 - 1) :
    (parseRangeToken start e = none ↔ e + 1 < start) ∧
      (start ≤ e + 1 → parseRangeToken start e = some (start, e + 1)) := by
  have hmod : (e + 1) % 2 ^ 64 = e + 1 := Nat.mod_eq_of_lt (by omega)
  constructor
  · simp only [parseRangeToken, hmod]
    by_cases h : e + 1 < start
    · simp [h]
    · simp [h]
  · intro hle
    simp only [parseRangeToken, hmod]
    rw [if_neg (by omega)]

/-- Witness for the amended C10 at the token `5-4`: no error, accepted as
the empty range `5..5`. -/
theorem range_error_amended_witness :
    (parseRangeToken 5 4 = none ↔ 4 + 1 < 5) ∧
      parseRangeToken 5 4 = some (5, 4 + 1) :=
  ⟨(range_error_amended 5 4 (by norm_num)).1,
    (range_error_amended 5 4 (by norm_num)).2 (by omega)⟩

end Aliquot
